import Mathlib

/- Verification of conjunction.py: a script that walks a time window with a
   fixed step, looking for the minimum and maximum angular separation of two
   sky objects.  Real arithmetic (Python floats, ephem.Date day counts) is
   modeled exactly by the rationals; times are measured in days as in the
   script, so one loop step is resolution / 86400 days.  The ephem library
   calls (position computation and ephem.separation) are treated as an
   external oracle giving, for each queried instant, the separation of the
   two objects at that instant. -/

namespace Conjunction

/-- Exact rational value of the IEEE-754 double constant math.pi, used by the
script in the seed record 2 * math.pi (line 194 of conjunction.py). -/
def mathPi : ℚ := 884279719003555 / 281474976710656

/-- Value of a string of ASCII digits, as Python int() computes it. -/
def digitsToNat (ds : List Char) : ℕ :=
  ds.foldl (fun a c => 10 * a + (c.toNat - 48)) 0

/-- Model of re.search with pattern digits-then-unit, as used by strToSeconds
(conjunction.py lines 68-85): scan left to right; at the first position where
a maximal run of digits is immediately followed by the unit character, return
the value of that run; if no position matches, return none. -/
def findUnit (u : Char) : List Char → Option ℕ
  | [] => none
  | c :: cs =>
    if c.isDigit ∧ (List.dropWhile Char.isDigit (c :: cs)).head? = some u then
      some (digitsToNat (List.takeWhile Char.isDigit (c :: cs)))
    else findUnit u cs

/-- strToSeconds (conjunction.py lines 64-87): the sum of the day, hour,
minute and second contributions found by four independent regex searches. -/
def strToSeconds (s : List Char) : ℕ :=
  (findUnit 'd' s).getD 0 * (24 * 60 * 60) +
    (findUnit 'h' s).getD 0 * (60 * 60) +
    (findUnit 'm' s).getD 0 * 60 +
    (findUnit 's' s).getD 0

/-- Model of the space removal replace applied before parsing
(conjunction.py lines 161-167). -/
def stripSpaces (s : List Char) : List Char :=
  s.filter (fun c => c != Char.ofNat 32)

/-- Duration in seconds as the script computes it (lines 161-162). -/
def durationSecondsOf (s : List Char) : ℕ := strToSeconds (stripSpaces s)

/-- Resolution in seconds as the script computes it (lines 166-167).  The
script performs no validation of the result: a string parsing to zero is
passed straight to the scan loop. -/
def resolutionSecondsOf (s : List Char) : ℕ := strToSeconds (stripSpaces s)

/-- Python round to the nearest integer with ties to even, applied to the
ideal rational value, modeling round(x, 2) after scaling by 100. -/
def roundHalfEven (q : ℚ) : ℤ :=
  let f := Int.floor q
  let r := q - (f : ℚ)
  if r < 1 / 2 then f
  else if 1 / 2 < r then f + 1
  else if f % 2 = 0 then f else f + 1

/-- Decimal rendering of a number of hundredths, matching the Python repr of
the float produced by round(x, 2): trailing fractional zeros are dropped, but
at least one fractional digit is kept. -/
def showHundredthsNat (n : ℕ) : String :=
  let i := n / 100
  let f := n % 100
  if f = 0 then Nat.repr i ++ ".0"
  else if f % 10 = 0 then Nat.repr i ++ "." ++ Nat.repr (f / 10)
  else if f < 10 then Nat.repr i ++ ".0" ++ Nat.repr f
  else Nat.repr i ++ "." ++ Nat.repr f

/-- Rendering of round(q, 2) as the %s formatting of the script shows it. -/
def showRound2 (q : ℚ) : String :=
  let n := roundHalfEven (q * 100)
  if n < 0 then "-" ++ showHundredthsNat n.natAbs else showHundredthsNat n.natAbs

/-- ddToDms (conjunction.py lines 92-104), numeric path: the degrees, minutes
and seconds display string.  Python x % 1.0 equals x - floor x. -/
def ddToDms (dd : ℚ) : String :=
  let minutes := (dd - (Int.floor dd : ℚ)) * 60
  let seconds := (minutes - (Int.floor minutes : ℚ)) * 60
  Int.repr (Int.floor dd) ++ " degrees " ++ Int.repr (Int.floor minutes) ++
    " minutes " ++ showRound2 seconds ++ " seconds"

/-- Version written from the specification contract: D is the integer floor
of the degree value, M the integer floor of the fractional-degree remainder
times 60, S the fractional-minute remainder times 60 rounded to two decimal
places, assembled as a degrees, minutes, seconds string. -/
def ddToDmsSpec (dd : ℚ) : String :=
  let d := Int.floor dd
  let m := Int.floor ((dd - (d : ℚ)) * 60)
  let s := ((dd - (d : ℚ)) * 60 - (m : ℚ)) * 60
  Int.repr d ++ " degrees " ++ Int.repr m ++ " minutes " ++ showRound2 s ++
    " seconds"

/-- Entry behavior of ddToDms (conjunction.py lines 92-98): an argument that
float() cannot convert is modeled as none; on it the script prints an ERROR
line and returns the integer 0 instead of a string, without raising. -/
def ddToDmsChecked : Option ℚ → String ⊕ ℤ
  | none => Sum.inr 0
  | some dd => Sum.inl (ddToDms dd)

/-- Body of one iteration of the while loop (conjunction.py lines 198-206):
update of the running (min, max) records by the separation sep sampled at
instant t. -/
def scanBody (sep t : ℚ) (s : (ℚ × ℚ) × (ℚ × ℚ)) : (ℚ × ℚ) × (ℚ × ℚ) :=
  ((if sep < s.1.1 then (sep, t) else s.1),
   (if s.2.1 < sep then (sep, t) else s.2))

/-- Fuel-indexed unfolding of the while loop (conjunction.py lines 197-208):
while t < end, sample the oracle at t, fold the separation into the records
and advance t by one step.  Returns the final value of t together with the
records.  The fuel only bounds the number of iterations; the termination
theorem shows that numIters fuel is enough whenever the step is positive. -/
def scanAux (oracle : ℚ → ℚ) (stepDays endDays : ℚ) :
    ℕ → ℚ → (ℚ × ℚ) × (ℚ × ℚ) → ℚ × ((ℚ × ℚ) × (ℚ × ℚ))
  | 0, t, s => (t, s)
  | n + 1, t, s =>
    if t < endDays then
      scanAux oracle stepDays endDays n (t + stepDays) (scanBody (oracle t) t s)
    else (t, s)

/-- Instants at which the loop queries the oracle, with the same fuel and the
same stopping rule as scanAux. -/
def sampleAux (stepDays endDays : ℚ) : ℕ → ℚ → List ℚ
  | 0, _ => []
  | n + 1, t =>
    if t < endDays then t :: sampleAux stepDays endDays n (t + stepDays) else []

/-- Iteration count of the loop: the ceiling of duration / resolution. -/
def numIters (durationSeconds resolutionSeconds : ℕ) : ℕ :=
  (Int.ceil ((durationSeconds : ℚ) / (resolutionSeconds : ℚ))).toNat

/-- Seed records (conjunction.py lines 194-195): the minimum record is seeded
at 2 * math.pi and the maximum record at 0, both stamped with the start
instant. -/
def initRecords (start : ℚ) : (ℚ × ℚ) × (ℚ × ℚ) :=
  ((2 * mathPi, start), (0, start))

/-- Right edge of the window (conjunction.py line 193): start plus the
duration converted to days. -/
def endDay (start : ℚ) (durationSeconds : ℕ) : ℚ :=
  start + (durationSeconds : ℚ) / 86400

/-- Loop step in days (conjunction.py line 208). -/
def stepDay (resolutionSeconds : ℕ) : ℚ := (resolutionSeconds : ℚ) / 86400

/-- Pair of records returned by the scan loop (conjunction.py lines 193-208):
first the minimum record, then the maximum record, each a separation together
with its timestamp. -/
def scanRecords (oracle : ℚ → ℚ) (start : ℚ)
    (durationSeconds resolutionSeconds : ℕ) : (ℚ × ℚ) × (ℚ × ℚ) :=
  (scanAux oracle (stepDay resolutionSeconds) (endDay start durationSeconds)
    (numIters durationSeconds resolutionSeconds) start (initRecords start)).2

/-- List of instants sampled by the scan loop. -/
def sampleTimes (start : ℚ) (durationSeconds resolutionSeconds : ℕ) : List ℚ :=
  sampleAux (stepDay resolutionSeconds) (endDay start durationSeconds)
    (numIters durationSeconds resolutionSeconds) start

/-- Object selection (conjunction.py lines 190-191), reached only when the
warning print of line 188 did not itself crash: the script indexes objects[0]
and objects[1] unconditionally, and with fewer than two entries Python raises
IndexError, modeled by none. -/
def selectObjects {α : Type} : List α → Option (α × α)
  | a :: b :: _ => some (a, b)
  | _ => none

/-- Guard of conjunction.py line 187: the warning print is attempted exactly
when the object count is not 2.  The printed message itself evaluates
len(object) of the line 126 loop variable, so the attempt only succeeds when
at least one object exists; see objectsBlock for the full error paths. -/
def objectCountWarning {α : Type} (l : List α) : Bool :=
  l.length != 2

/-- Outcome of the object-count block (conjunction.py lines 187-191).  With
an empty list the warning print of line 188 itself raises TypeError: the loop
variable of line 126 was never bound, the name object resolves to the builtin
object class, and len of it fails, so nothing is printed and the indexing is
never reached.  With exactly one object the warning prints and objects[1]
then raises IndexError.  Otherwise the block yields the first two objects,
with the warning flag recording whether a warning line was printed. -/
inductive ObjectsOutcome (α : Type) : Type where
  | typeError : ObjectsOutcome α
  | warnedIndexError : ObjectsOutcome α
  | proceed : Bool → α → α → ObjectsOutcome α

/-- Behavior of conjunction.py lines 187-191 on the resolved object list. -/
def objectsBlock {α : Type} : List α → ObjectsOutcome α
  | [] => ObjectsOutcome.typeError
  | [_] => ObjectsOutcome.warnedIndexError
  | a :: b :: rest => ObjectsOutcome.proceed (objectCountWarning (a :: b :: rest)) a b

/-- Seconds per unit letter, as the specification of the duration parser
assigns them. -/
def unitSeconds (u : Char) : ℕ :=
  if u = 'd' then 86400
  else if u = 'h' then 3600
  else if u = 'm' then 60
  else if u = 's' then 1
  else 0

/-- Text of one unit token: its digits followed by its unit letter. -/
def renderToken (p : List Char × Char) : List Char := p.1 ++ [p.2]

/-- Text of a duration string composed of unit tokens, in the given order. -/
def renderTokens (ts : List (List Char × Char)) : List Char :=
  (ts.map renderToken).flatten

/-- Wellformed unit token: a nonempty digit string together with one of the
four unit letters. -/
def ValidToken (p : List Char × Char) : Prop :=
  p.1 ≠ [] ∧ (∀ c ∈ p.1, c.isDigit) ∧
    (p.2 = 'd' ∨ p.2 = 'h' ∨ p.2 = 'm' ∨ p.2 = 's')

/-- Once the loop condition fails, scanAux returns immediately, whatever the
fuel. -/
theorem scanAux_exit (oracle : ℚ → ℚ) (st e : ℚ) (n : ℕ) (t : ℚ)
    (s : (ℚ × ℚ) × (ℚ × ℚ)) (h : ¬ t < e) :
    scanAux oracle st e n t s = (t, s) := by
  cases n with
  | zero => rfl
  | succ n => simp [scanAux, h]

/-- With fuel n and e ≤ t + n * st, the loop has exited when scanAux
returns: the final position is at or past the window end. -/
theorem scanAux_final_ge (oracle : ℚ → ℚ) (st e : ℚ) (n : ℕ) :
    ∀ (t : ℚ) (s : (ℚ × ℚ) × (ℚ × ℚ)), e ≤ t + n * st →
      ¬ (scanAux oracle st e n t s).1 < e := by
  induction n with
  | zero =>
    intro t s h
    simp only [scanAux, not_lt]
    push_cast at h
    linarith
  | succ n ih =>
    intro t s h
    by_cases ht : t < e
    · simp only [scanAux, if_pos ht]
      apply ih
      push_cast at h ⊢
      linarith
    · simp only [scanAux, if_neg ht]
      exact ht

/-- Once enough fuel is supplied for the loop to exit, adding fuel does not
change the result. -/
theorem scanAux_stable (oracle : ℚ → ℚ) (st e : ℚ) (n : ℕ) :
    ∀ (m : ℕ) (t : ℚ) (s : (ℚ × ℚ) × (ℚ × ℚ)), n ≤ m →
      ¬ (scanAux oracle st e n t s).1 < e →
      scanAux oracle st e m t s = scanAux oracle st e n t s := by
  induction n with
  | zero =>
    intro m t s _ h
    simp only [scanAux] at h ⊢
    exact scanAux_exit oracle st e m t s h
  | succ n ih =>
    intro m t s hnm h
    cases m with
    | zero => omega
    | succ m =>
      by_cases ht : t < e
      · simp only [scanAux, if_pos ht] at h ⊢
        exact ih m (t + st) _ (by omega) h
      · rw [scanAux_exit oracle st e (n + 1) t s ht] at h ⊢
        rw [scanAux_exit oracle st e (m + 1) t s ht]

/-- Membership in the sample list: exactly the instants t + k * st, k below
the fuel, that lie strictly before the window end. -/
theorem sampleAux_mem (st e : ℚ) (hst : 0 < st) (n : ℕ) :
    ∀ (t x : ℚ), x ∈ sampleAux st e n t ↔
      ∃ k : ℕ, k < n ∧ x = t + k * st ∧ x < e := by
  induction n with
  | zero => intro t x; simp [sampleAux]
  | succ n ih =>
    intro t x
    by_cases ht : t < e
    · simp only [sampleAux, if_pos ht, List.mem_cons, ih]
      constructor
      · rintro (rfl | ⟨k, hk, rfl, hxe⟩)
        · exact ⟨0, Nat.succ_pos n, by push_cast; ring, ht⟩
        · exact ⟨k + 1, by omega, by push_cast; ring, hxe⟩
      · rintro ⟨k, hk, rfl, hxe⟩
        cases k with
        | zero => left; push_cast; ring
        | succ k => right; exact ⟨k, by omega, by push_cast; ring, hxe⟩
    · simp only [sampleAux, if_neg ht, List.not_mem_nil, false_iff]
      rintro ⟨k, _, rfl, hxe⟩
      have hk0 : (0:ℚ) ≤ (k : ℚ) * st :=
        mul_nonneg (Nat.cast_nonneg k) hst.le
      push_neg at ht
      linarith

/-- The records computed by the loop are the fold of the per-step update over
the sampled instants. -/
theorem scanAux_snd_foldl (oracle : ℚ → ℚ) (st e : ℚ) (n : ℕ) :
    ∀ (t : ℚ) (s : (ℚ × ℚ) × (ℚ × ℚ)),
      (scanAux oracle st e n t s).2 =
        List.foldl (fun acc x => scanBody (oracle x) x acc) s
          (sampleAux st e n t) := by
  induction n with
  | zero => intro t s; simp [scanAux, sampleAux]
  | succ n ih =>
    intro t s
    by_cases ht : t < e
    · simp only [scanAux, sampleAux, if_pos ht, List.foldl_cons]
      exact ih (t + st) _
    · simp [scanAux, sampleAux, if_neg ht]

/-- The timestamps carried by the two records are sampled instants, unless
the records still hold their seed timestamps. -/
theorem scanAux_times (oracle : ℚ → ℚ) (st e : ℚ) (n : ℕ) :
    ∀ (t : ℚ) (s : (ℚ × ℚ) × (ℚ × ℚ)),
      ((scanAux oracle st e n t s).2.1.2 ∈ sampleAux st e n t ∨
        (scanAux oracle st e n t s).2.1.2 = s.1.2) ∧
      ((scanAux oracle st e n t s).2.2.2 ∈ sampleAux st e n t ∨
        (scanAux oracle st e n t s).2.2.2 = s.2.2) := by
  induction n with
  | zero => intro t s; simp [scanAux, sampleAux]
  | succ n ih =>
    intro t s
    by_cases ht : t < e
    · simp only [scanAux, sampleAux, if_pos ht]
      obtain ⟨h1, h2⟩ := ih (t + st) (scanBody (oracle t) t s)
      constructor
      · rcases h1 with h | h
        · exact Or.inl (List.mem_cons_of_mem _ h)
        · rw [h]
          by_cases hc : oracle t < s.1.1
          · simp only [scanBody, if_pos hc]
            exact Or.inl (List.mem_cons_self _ _)
          · simp only [scanBody, if_neg hc]
            right
            trivial
      · rcases h2 with h | h
        · exact Or.inl (List.mem_cons_of_mem _ h)
        · rw [h]
          by_cases hc : s.2.1 < oracle t
          · simp only [scanBody, if_pos hc]
            exact Or.inl (List.mem_cons_self _ _)
          · simp only [scanBody, if_neg hc]
            right
            trivial
    · simp [scanAux, if_neg ht]

/-- The minimum record never rises: its separation is at most the seed value
and at most every sampled separation. -/
theorem scanAux_min_le (oracle : ℚ → ℚ) (st e : ℚ) (n : ℕ) :
    ∀ (t : ℚ) (s : (ℚ × ℚ) × (ℚ × ℚ)),
      (scanAux oracle st e n t s).2.1.1 ≤ s.1.1 ∧
      ∀ x ∈ sampleAux st e n t, (scanAux oracle st e n t s).2.1.1 ≤ oracle x := by
  induction n with
  | zero => intro t s; simp [scanAux, sampleAux]
  | succ n ih =>
    intro t s
    by_cases ht : t < e
    · simp only [scanAux, sampleAux, if_pos ht]
      obtain ⟨h1, h2⟩ := ih (t + st) (scanBody (oracle t) t s)
      have hb : (scanBody (oracle t) t s).1.1 ≤ s.1.1 ∧
          (scanBody (oracle t) t s).1.1 ≤ oracle t := by
        by_cases hc : oracle t < s.1.1
        · simp only [scanBody, if_pos hc]
          exact ⟨le_of_lt hc, le_refl _⟩
        · simp only [scanBody, if_neg hc]
          exact ⟨le_refl _, not_lt.mp hc⟩
      refine ⟨le_trans h1 hb.1, ?_⟩
      intro x hx
      rcases List.mem_cons.mp hx with rfl | hx
      · exact le_trans h1 hb.2
      · exact h2 x hx
    · simp [scanAux, sampleAux, if_neg ht]

/-- With a zero step the loop position never advances. -/
theorem scanAux_step_zero (oracle : ℚ → ℚ) (e : ℚ) (n : ℕ) :
    ∀ (t : ℚ) (s : (ℚ × ℚ) × (ℚ × ℚ)), (scanAux oracle 0 e n t s).1 = t := by
  induction n with
  | zero => intro t s; rfl
  | succ n ih =>
    intro t s
    by_cases ht : t < e
    · simp only [scanAux, if_pos ht, add_zero]
      exact ih t _
    · simp [scanAux, if_neg ht]

/-- The sampled instants are strictly increasing. -/
theorem sampleAux_chain (st e : ℚ) (hst : 0 < st) (n : ℕ) :
    ∀ t : ℚ, List.Chain' (fun a b : ℚ => a < b) (sampleAux st e n t) := by
  induction n with
  | zero => intro t; simp [sampleAux]
  | succ n ih =>
    intro t
    by_cases ht : t < e
    · simp only [sampleAux, if_pos ht]
      refine List.chain'_cons'.mpr ⟨?_, ih (t + st)⟩
      intro y hy
      have hy' : y ∈ sampleAux st e n (t + st) := List.mem_of_mem_head? hy
      obtain ⟨k, _, rfl, _⟩ := (sampleAux_mem st e hst n (t + st) y).mp hy'
      have hk0 : (0:ℚ) ≤ (k : ℚ) * st :=
        mul_nonneg (Nat.cast_nonneg k) hst.le
      linarith
    · simp [sampleAux, if_neg ht]

/-- The chosen fuel covers the whole window: duration is at most fuel times
resolution. -/
theorem numIters_mul_ge (durS resS : ℕ) (hres : 0 < resS) :
    (durS : ℚ) ≤ (numIters durS resS : ℚ) * (resS : ℚ) := by
  have hres' : (0:ℚ) < (resS : ℚ) := by exact_mod_cast hres
  have h1 : ((durS : ℚ) / (resS : ℚ)) ≤ ((⌈(durS : ℚ) / (resS : ℚ)⌉ : ℤ) : ℚ) :=
    Int.le_ceil _
  have h2 : (0:ℤ) ≤ ⌈(durS : ℚ) / (resS : ℚ)⌉ :=
    Int.ceil_nonneg (by positivity)
  have h3 : ((numIters durS resS : ℕ) : ℚ) = ((⌈(durS : ℚ) / (resS : ℚ)⌉ : ℤ) : ℚ) := by
    simp only [numIters]
    exact_mod_cast Int.toNat_of_nonneg h2
  rw [h3]
  rw [div_le_iff₀ hres'] at h1
  exact h1

/-- Any step index whose instant still lies inside the window is below the
chosen fuel. -/
theorem lt_numIters (durS resS k : ℕ) (hres : 0 < resS)
    (hk : (k : ℚ) * (resS : ℚ) < (durS : ℚ)) : k < numIters durS resS := by
  have hres' : (0:ℚ) < (resS : ℚ) := by exact_mod_cast hres
  have h1 : ((k : ℤ) : ℚ) < (durS : ℚ) / (resS : ℚ) := by
    rw [lt_div_iff₀ hres']
    push_cast
    exact hk
  have h2 : (k : ℤ) < ⌈(durS : ℚ) / (resS : ℚ)⌉ := Int.lt_ceil.mpr h1
  simpa [numIters] using Int.lt_toNat.mpr h2

/-- With zero duration the fuel, hence the iteration count, is zero. -/
theorem numIters_zero_dur (resS : ℕ) : numIters 0 resS = 0 := by
  simp [numIters]

/-- With 0 < duration < resolution the loop runs exactly once. -/
theorem numIters_one (durS resS : ℕ) (h0 : 0 < durS) (h1 : durS < resS) :
    numIters durS resS = 1 := by
  have hres' : (0:ℚ) < (resS : ℚ) := by exact_mod_cast h0.trans h1
  have hdur' : (0:ℚ) < (durS : ℚ) := by exact_mod_cast h0
  have hq0 : (0:ℚ) < (durS : ℚ) / (resS : ℚ) := div_pos hdur' hres'
  have hq1 : (durS : ℚ) / (resS : ℚ) ≤ 1 := by
    rw [div_le_one hres']
    exact_mod_cast h1.le
  have hc : ⌈(durS : ℚ) / (resS : ℚ)⌉ = 1 := by
    rw [Int.ceil_eq_iff]
    constructor
    · push_cast
      linarith
    · push_cast
      linarith
  simp [numIters, hc]

/-- Taking the digit prefix of a digit run followed by a non-digit returns
exactly the run. -/
theorem takeWhile_digits_append (ds : List Char) (h : ∀ c ∈ ds, c.isDigit)
    (u : Char) (hu : ¬ u.isDigit) (rest : List Char) :
    List.takeWhile Char.isDigit (ds ++ u :: rest) = ds := by
  induction ds with
  | nil => simp [List.takeWhile_cons_of_neg hu]
  | cons d ds ih =>
    rw [List.cons_append,
      List.takeWhile_cons_of_pos (h d (List.mem_cons_self d ds))]
    rw [ih fun c hc => h c (List.mem_cons_of_mem d hc)]

/-- Dropping the digit prefix of a digit run followed by a non-digit leaves
the non-digit and what follows. -/
theorem dropWhile_digits_append (ds : List Char) (h : ∀ c ∈ ds, c.isDigit)
    (u : Char) (hu : ¬ u.isDigit) (rest : List Char) :
    List.dropWhile Char.isDigit (ds ++ u :: rest) = u :: rest := by
  induction ds with
  | nil => simp [List.dropWhile_cons_of_neg hu]
  | cons d ds ih =>
    rw [List.cons_append,
      List.dropWhile_cons_of_pos (h d (List.mem_cons_self d ds))]
    exact ih fun c hc => h c (List.mem_cons_of_mem d hc)

/-- Behavior of the regex search on a leading digit run followed by a letter:
it matches there when the letter is the searched unit, and otherwise skips
past the run and the letter. -/
theorem findUnit_digits_cons (u : Char) (ds : List Char) (hne : ds ≠ [])
    (hds : ∀ c ∈ ds, c.isDigit) (u' : Char) (hu' : ¬ u'.isDigit)
    (rest : List Char) :
    findUnit u (ds ++ u' :: rest) =
      if u' = u then some (digitsToNat ds) else findUnit u rest := by
  induction ds with
  | nil => exact absurd rfl hne
  | cons d ds ih =>
    have hd : d.isDigit := hds d (List.mem_cons_self _ _)
    have hds' : ∀ c ∈ ds, c.isDigit := fun c hc => hds c (List.mem_cons_of_mem d hc)
    have hdrop := dropWhile_digits_append (d :: ds) hds u' hu' rest
    have htake := takeWhile_digits_append (d :: ds) hds u' hu' rest
    by_cases huu : u' = u
    · subst huu
      rw [List.cons_append, findUnit, ← List.cons_append,
        if_pos ⟨hd, by rw [hdrop]; rfl⟩]
      rw [htake, if_pos rfl]
    · rw [List.cons_append, findUnit, ← List.cons_append, if_neg]
      · rw [if_neg huu]
        cases ds with
        | nil =>
          rw [List.nil_append, findUnit, if_neg]
          rintro ⟨hdig, -⟩
          exact hu' hdig
        | cons d2 ds2 =>
          rw [ih (by simp) hds']
          rw [if_neg huu]
      · rw [hdrop]
        rintro ⟨-, hhead⟩
        exact huu (Option.some.inj hhead)

/-- Rendering a token list starting with p puts the digits of p, then its
unit letter, then the rest. -/
theorem renderTokens_cons (p : List Char × Char) (ts : List (List Char × Char)) :
    renderTokens (p :: ts) = p.1 ++ p.2 :: renderTokens ts := by
  simp [renderTokens, renderToken]

/-- The regex search on a rendered token list resolves against the head
token first. -/
theorem findUnit_cons_token (u : Char) (p : List Char × Char)
    (hp : ValidToken p) (ts : List (List Char × Char)) :
    findUnit u (renderTokens (p :: ts)) =
      if p.2 = u then some (digitsToNat p.1) else findUnit u (renderTokens ts) := by
  have hu' : ¬ p.2.isDigit := by
    rcases hp.2.2 with h | h | h | h <;> rw [h] <;> decide
  rw [renderTokens_cons]
  exact findUnit_digits_cons u p.1 hp.1 hp.2.1 p.2 hu' (renderTokens ts)

/-- A unit absent from the token list is not found in the rendered string. -/
theorem findUnit_none_of_not_mem (u : Char) (ts : List (List Char × Char))
    (hv : ∀ p ∈ ts, ValidToken p) (hu : u ∉ ts.map Prod.snd) :
    findUnit u (renderTokens ts) = none := by
  induction ts with
  | nil => rfl
  | cons p ts ih =>
    simp only [List.map_cons, List.mem_cons, not_or] at hu
    rw [findUnit_cons_token u p (hv p (List.mem_cons_self _ _)) ts]
    rw [if_neg fun h => hu.1 h.symm]
    exact ih (fun q hq => hv q (List.mem_cons_of_mem _ hq)) hu.2

/-- strToSeconds on a rendered list of wellformed tokens with pairwise
distinct units is the sum of the token contributions. -/
theorem strToSeconds_renderTokens (ts : List (List Char × Char))
    (hv : ∀ p ∈ ts, ValidToken p) (hnd : (ts.map Prod.snd).Nodup) :
    strToSeconds (renderTokens ts) =
      (ts.map fun p => digitsToNat p.1 * unitSeconds p.2).sum := by
  induction ts with
  | nil => rfl
  | cons p ts ih =>
    have hp := hv p (List.mem_cons_self _ _)
    have hv' : ∀ q ∈ ts, ValidToken q := fun q hq => hv q (List.mem_cons_of_mem _ hq)
    rw [List.map_cons, List.nodup_cons] at hnd
    obtain ⟨hpm, hnd'⟩ := hnd
    have hnone := findUnit_none_of_not_mem p.2 ts hv' hpm
    have hcons := fun u => findUnit_cons_token u p hp ts
    have hsum := ih hv' hnd'
    simp only [List.map_cons, List.sum_cons]
    rcases hp.2.2 with h | h | h | h <;>
      rw [h] at hcons hnone <;>
      rw [← hsum, strToSeconds, strToSeconds, hcons 'd', hcons 'h', hcons 'm',
        hcons 's', hnone, h] <;>
      simp [unitSeconds] <;>
      omega

/-- C1 (counterexample): with a zero-length window every sampled separation
lies vacuously in [0, pi], yet the returned minimum record still holds the
seed separation 2 * math.pi, which exceeds pi: the seed is 2 * math.pi, not
the pi stated by the claim. -/
theorem c1_counterexample :
    scanRecords (fun _ => 1) 0 0 60 = ((2 * mathPi, 0), (0, 0)) ∧
    ¬ (scanRecords (fun _ => 1) 0 0 60).1.1 ≤ mathPi ∧
    2 * mathPi ≠ mathPi := by
  have h : scanRecords (fun _ => 1) 0 0 60 = ((2 * mathPi, 0), (0, 0)) := by
    norm_num [scanRecords, numIters, scanAux, initRecords]
  refine ⟨h, ?_, by norm_num [mathPi]⟩
  rw [h]
  norm_num [mathPi]

/-- C1 (amended): the scan seeds the minimum record at (2 * math.pi, start),
twice the claimed value, and the maximum record at (0, start); for every scan
with at least one sampled instant whose sampled separations all lie in
[0, pi], the returned minimum separation is at most pi. -/
theorem c1_min_le_pi (oracle : ℚ → ℚ) (start : ℚ) (durS resS : ℕ)
    (hne : sampleTimes start durS resS ≠ [])
    (hsep : ∀ x ∈ sampleTimes start durS resS,
      0 ≤ oracle x ∧ oracle x ≤ mathPi) :
    initRecords start = ((2 * mathPi, start), (0, start)) ∧
    (scanRecords oracle start durS resS).1.1 ≤ mathPi := by
  refine ⟨rfl, ?_⟩
  obtain ⟨x, hx⟩ := List.exists_mem_of_ne_nil _ hne
  simp only [sampleTimes] at hx
  simp only [scanRecords]
  have h := (scanAux_min_le oracle (stepDay resS) (endDay start durS)
    (numIters durS resS) start (initRecords start)).2 x hx
  exact le_trans h (hsep x (by simpa [sampleTimes] using hx)).2

/-- C1 witness: a one-step scan with constant separation 1. -/
theorem c1_witness :
    initRecords 0 = ((2 * mathPi, 0), (0, 0)) ∧
    (scanRecords (fun _ => 1) 0 60 60).1.1 ≤ mathPi := by
  apply c1_min_le_pi
  · show sampleTimes 0 60 60 ≠ []
    norm_num [sampleTimes, sampleAux, numIters, stepDay, endDay]
  · intro x hx
    constructor
    · norm_num
    · norm_num [mathPi]

/-- C2 (counterexample): duration 0 is below step 60, yet the loop body runs
zero times, no instant is sampled, and the minimum and maximum separations
differ (2 * math.pi against 0). -/
theorem c2_counterexample :
    (0 : ℕ) < 60 ∧ sampleTimes 0 0 60 = [] ∧
    (scanRecords (fun _ => 1) 0 0 60).1.1 ≠
      (scanRecords (fun _ => 1) 0 0 60).2.1 := by
  refine ⟨by norm_num, ?_, ?_⟩
  · norm_num [sampleTimes, numIters, sampleAux]
  · norm_num [scanRecords, numIters, scanAux, initRecords, mathPi]

/-- C2 (amended): for every window with 0 < durationSeconds < stepSeconds,
the loop body executes exactly once, sampling only the start instant, and,
the single sampled separation lying in [0, pi], both returned records carry
that separation with timestamp window.start. -/
theorem c2_single_step (oracle : ℚ → ℚ) (start : ℚ) (durS resS : ℕ)
    (h0 : 0 < durS) (h1 : durS < resS)
    (hlo : 0 ≤ oracle start) (hhi : oracle start ≤ mathPi) :
    sampleTimes start durS resS = [start] ∧
    scanRecords oracle start durS resS =
      ((oracle start, start), (oracle start, start)) := by
  have hmin : oracle start < 2 * mathPi :=
    lt_of_le_of_lt hhi (by norm_num [mathPi])
  have hdur' : (0:ℚ) < (durS : ℚ) := by exact_mod_cast h0
  have hend : start < endDay start durS := by
    simp only [endDay]
    have : (0:ℚ) < (durS : ℚ) / 86400 := by positivity
    linarith
  have hiters := numIters_one durS resS h0 h1
  constructor
  · simp [sampleTimes, hiters, sampleAux, hend]
  · simp only [scanRecords, hiters, scanAux, if_pos hend]
    simp only [scanBody, initRecords]
    rw [if_pos hmin]
    rcases eq_or_lt_of_le hlo with h | h
    · rw [if_neg (by rw [← h]; exact lt_irrefl 0)]
      simp [← h]
    · rw [if_pos h]

/-- C2 witness: duration 30 below step 60, constant separation 1. -/
theorem c2_witness :
    sampleTimes 0 30 60 = [0] ∧
    scanRecords (fun _ => 1) 0 30 60 = ((1, 0), (1, 0)) :=
  c2_single_step (fun _ => 1) 0 30 60 (by norm_num) (by norm_num)
    (by norm_num) (by norm_num [mathPi])

/-- C3: with a positive step the scan samples exactly the instants
start + k * step lying strictly before the right edge; the right edge itself
is never sampled; the records are the fold of the per-step update over
exactly these instants; and each returned timestamp is a sampled instant or
the window start. -/
theorem c3_sampling (start : ℚ) (durS resS : ℕ) (hres : 0 < resS) :
    (∀ x : ℚ, x ∈ sampleTimes start durS resS ↔
      ∃ k : ℕ, x = start + (k : ℚ) * stepDay resS ∧ x < endDay start durS) ∧
    endDay start durS ∉ sampleTimes start durS resS ∧
    ∀ oracle : ℚ → ℚ,
      scanRecords oracle start durS resS =
        List.foldl (fun acc x => scanBody (oracle x) x acc) (initRecords start)
          (sampleTimes start durS resS) ∧
      ((scanRecords oracle start durS resS).1.2 ∈ sampleTimes start durS resS ∨
        (scanRecords oracle start durS resS).1.2 = start) ∧
      ((scanRecords oracle start durS resS).2.2 ∈ sampleTimes start durS resS ∨
        (scanRecords oracle start durS resS).2.2 = start) := by
  have hres' : (0:ℚ) < (resS:ℚ) := by exact_mod_cast hres
  have hst : (0:ℚ) < stepDay resS := by
    simp only [stepDay]
    positivity
  have hmem : ∀ x : ℚ, x ∈ sampleTimes start durS resS ↔
      ∃ k : ℕ, x = start + (k : ℚ) * stepDay resS ∧ x < endDay start durS := by
    intro x
    simp only [sampleTimes]
    rw [sampleAux_mem _ _ hst]
    constructor
    · rintro ⟨k, _, rfl, hxe⟩
      exact ⟨k, rfl, hxe⟩
    · rintro ⟨k, rfl, hxe⟩
      refine ⟨k, ?_, rfl, hxe⟩
      apply lt_numIters durS resS k hres
      simp only [stepDay, endDay] at hxe
      rw [← mul_div_assoc] at hxe
      have h86 : (0:ℚ) < 86400 := by norm_num
      have h2 : (k:ℚ) * (resS:ℚ) / 86400 < (durS:ℚ) / 86400 := by linarith
      rw [div_lt_div_iff_of_pos_right h86] at h2
      exact h2
  refine ⟨hmem, ?_, ?_⟩
  · intro hmem'
    obtain ⟨k, hk, hlt⟩ := (hmem _).mp hmem'
    exact absurd hlt (lt_irrefl _)
  · intro oracle
    refine ⟨?_, ?_⟩
    · simp only [scanRecords, sampleTimes]
      exact scanAux_snd_foldl oracle _ _ _ start (initRecords start)
    · have h := scanAux_times oracle (stepDay resS) (endDay start durS)
        (numIters durS resS) start (initRecords start)
      simpa [scanRecords, sampleTimes, initRecords] using h

/-- C3 witness: two-step window, start 0, duration 120, resolution 60. -/
theorem c3_witness :
    (∀ x : ℚ, x ∈ sampleTimes 0 120 60 ↔
      ∃ k : ℕ, x = 0 + (k : ℚ) * stepDay 60 ∧ x < endDay 0 120) ∧
    endDay 0 120 ∉ sampleTimes 0 120 60 ∧
    ∀ oracle : ℚ → ℚ,
      scanRecords oracle 0 120 60 =
        List.foldl (fun acc x => scanBody (oracle x) x acc) (initRecords 0)
          (sampleTimes 0 120 60) ∧
      ((scanRecords oracle 0 120 60).1.2 ∈ sampleTimes 0 120 60 ∨
        (scanRecords oracle 0 120 60).1.2 = 0) ∧
      ((scanRecords oracle 0 120 60).2.2 ∈ sampleTimes 0 120 60 ∨
        (scanRecords oracle 0 120 60).2.2 = 0) :=
  c3_sampling 0 120 60 (by norm_num)

/-- C4: with a positive resolution the while loop terminates: with the fuel
numIters the loop position has reached the window end (the loop condition
fails), supplying more fuel changes nothing, and the visited instants
strictly increase. -/
theorem c4_terminates (oracle : ℚ → ℚ) (start : ℚ) (durS resS : ℕ)
    (hres : 0 < resS) :
    ¬ (scanAux oracle (stepDay resS) (endDay start durS)
        (numIters durS resS) start (initRecords start)).1 < endDay start durS ∧
    (∀ m : ℕ, numIters durS resS ≤ m →
      scanAux oracle (stepDay resS) (endDay start durS) m start
          (initRecords start) =
        scanAux oracle (stepDay resS) (endDay start durS)
          (numIters durS resS) start (initRecords start)) ∧
    List.Chain' (fun a b : ℚ => a < b) (sampleTimes start durS resS) := by
  have hres' : (0:ℚ) < (resS:ℚ) := by exact_mod_cast hres
  have hst : (0:ℚ) < stepDay resS := by
    simp only [stepDay]
    positivity
  have hge : endDay start durS ≤
      start + (numIters durS resS : ℚ) * stepDay resS := by
    have hmul := numIters_mul_ge durS resS hres
    simp only [endDay, stepDay]
    rw [← mul_div_assoc]
    have hdiv : (durS : ℚ) / 86400 ≤ ((numIters durS resS : ℚ) * resS) / 86400 := by
      gcongr
    linarith
  have hexit := scanAux_final_ge oracle (stepDay resS) (endDay start durS)
    (numIters durS resS) start (initRecords start) hge
  refine ⟨hexit, ?_, ?_⟩
  · intro m hm
    exact scanAux_stable oracle _ _ (numIters durS resS) m start
      (initRecords start) hm hexit
  · simp only [sampleTimes]
    exact sampleAux_chain _ _ hst _ start

/-- C4 witness: one-step window, start 0, duration 60, resolution 60. -/
theorem c4_witness :
    ¬ (scanAux (fun _ => 1) (stepDay 60) (endDay 0 60) (numIters 60 60) 0
        (initRecords 0)).1 < endDay 0 60 ∧
    (∀ m : ℕ, numIters 60 60 ≤ m →
      scanAux (fun _ => 1) (stepDay 60) (endDay 0 60) m 0 (initRecords 0) =
        scanAux (fun _ => 1) (stepDay 60) (endDay 0 60) (numIters 60 60) 0
          (initRecords 0)) ∧
    List.Chain' (fun a b : ℚ => a < b) (sampleTimes 0 60 60) :=
  c4_terminates (fun _ => 1) 0 60 60 (by norm_num)

/-- C5: the script never rejects a zero resolution: the string 0s parses to
zero seconds, giving a zero day step, and with a positive duration the loop
position never advances while the loop condition stays true, so the while
loop can never exit. -/
theorem c5_no_rejection :
    resolutionSecondsOf ['0', 's'] = 0 ∧
    stepDay (resolutionSecondsOf ['0', 's']) = 0 ∧
    ∀ n : ℕ,
      (scanAux (fun _ => 1) (stepDay (resolutionSecondsOf ['0', 's']))
        (endDay 0 60) n 0 (initRecords 0)).1 = 0 ∧
      (0 : ℚ) < endDay 0 60 := by
  have h0 : resolutionSecondsOf ['0', 's'] = 0 := by decide
  have hst : stepDay (resolutionSecondsOf ['0', 's']) = 0 := by
    rw [h0]
    simp [stepDay]
  refine ⟨h0, hst, fun n => ⟨?_, by norm_num [endDay]⟩⟩
  rw [hst]
  exact scanAux_step_zero _ _ n 0 _

/-- C6 (counterexample): the script parses 2d3h to 183600 seconds, not to the
176400 stated by the claim: 2 days and 3 hours are 2 * 86400 + 3 * 3600 =
183600. -/
theorem c6_counterexample :
    strToSeconds ['2', 'd', '3', 'h'] = 183600 ∧
    strToSeconds ['2', 'd', '3', 'h'] ≠ 176400 := by
  constructor <;> decide

/-- C6 (amended): for every valid duration string made of unit tokens with
pairwise distinct units, strToSeconds returns the exact sum of the unit
contributions (absent units contributing zero); 2d3h yields
2 * 86400 + 3 * 3600 = 183600, not 176400; and a string containing none of
the four patterns yields 0. -/
theorem c6_parse_sum :
    (∀ ts : List (List Char × Char), (∀ p ∈ ts, ValidToken p) →
      (ts.map Prod.snd).Nodup →
      strToSeconds (renderTokens ts) =
        (ts.map fun p => digitsToNat p.1 * unitSeconds p.2).sum) ∧
    strToSeconds ['2', 'd', '3', 'h'] = 2 * 86400 + 3 * 3600 ∧
    strToSeconds ['x', 'y', 'z'] = 0 := by
  refine ⟨strToSeconds_renderTokens, ?_, ?_⟩ <;> decide

/-- C6 witness: the token list of 2d3h is wellformed with distinct units and
its rendering parses to the contribution sum. -/
theorem c6_witness :
    (∀ p ∈ [(['2'], 'd'), (['3'], 'h')], ValidToken p) ∧
    strToSeconds (renderTokens [(['2'], 'd'), (['3'], 'h')]) =
      ([(['2'], 'd'), (['3'], 'h')].map
        fun p => digitsToNat p.1 * unitSeconds p.2).sum := by
  have hv : ∀ p ∈ [(['2'], 'd'), (['3'], 'h')], ValidToken p := by
    intro p hp
    simp only [List.mem_cons, List.not_mem_nil, or_false] at hp
    rcases hp with rfl | rfl
    · exact ⟨by decide, by decide, by decide⟩
    · exact ⟨by decide, by decide, by decide⟩
  exact ⟨hv, c6_parse_sum.1 _ hv (by decide)⟩

/-- C7: for nonnegative input ddToDms agrees with the specification formula
(floor degrees, floor of the scaled fractional remainder as minutes, seconds
rounded to two places), and the two documented examples hold. -/
theorem c7_format :
    (∀ dd : ℚ, 0 ≤ dd → ddToDms dd = ddToDmsSpec dd) ∧
    ddToDms 0 = "0 degrees 0 minutes 0.0 seconds" ∧
    ddToDms (17755702 / 100000) = "177 degrees 33 minutes 25.27 seconds" := by
  refine ⟨fun dd _ => rfl, ?_, ?_⟩
  · norm_num [ddToDms, showRound2, roundHalfEven, showHundredthsNat]
    rfl
  · norm_num [ddToDms, showRound2, roundHalfEven, showHundredthsNat,
      Int.floor_eq_iff]
    rfl

/-- C7 witness: the agreement instantiated at the documented example
input. -/
theorem c7_witness :
    ddToDms (17755702 / 100000) = ddToDmsSpec (17755702 / 100000) :=
  c7_format.1 (17755702 / 100000) (by norm_num)

/-- C8: an input the float conversion rejects does not raise: ddToDms warns
and returns the zero fallback; a convertible input follows the numeric
path. -/
theorem c8_fallback :
    ddToDmsChecked none = Sum.inr 0 ∧
    ∀ q : ℚ, ddToDmsChecked (some q) = Sum.inl (ddToDms q) :=
  ⟨rfl, fun _ => rfl⟩

/-- C9 (counterexample): a single-element object list has count different
from 2 and triggers the warning, but the unconditional indexing of the first
two entries fails (IndexError), so the scan does not run; an empty list does
not even reach the warning, because the warning print itself raises
TypeError on the unbound loop variable. -/
theorem c9_counterexample :
    objectCountWarning ([5] : List ℕ) = true ∧
    selectObjects ([5] : List ℕ) = none ∧
    objectsBlock ([5] : List ℕ) = ObjectsOutcome.warnedIndexError ∧
    objectsBlock ([] : List ℕ) = ObjectsOutcome.typeError :=
  ⟨rfl, rfl, rfl, rfl⟩

/-- C9 (amended): full case split of the object-count block.  With zero
objects the warning print itself crashes with TypeError, so nothing is
printed and the indexing is never reached; with one object the warning
prints and the indexing then crashes with IndexError, so no scan runs; with
exactly two the block proceeds without warning; with three or more it prints
the warning but still proceeds, unconditionally indexing the first two
entries. -/
theorem c9_warn_proceed {α : Type} :
    objectsBlock ([] : List α) = ObjectsOutcome.typeError ∧
    (∀ a : α, objectsBlock [a] = ObjectsOutcome.warnedIndexError) ∧
    (∀ a b : α, objectsBlock [a, b] = ObjectsOutcome.proceed false a b) ∧
    (∀ (a b : α) (rest : List α), rest ≠ [] →
      objectsBlock (a :: b :: rest) = ObjectsOutcome.proceed true a b ∧
        objectCountWarning (a :: b :: rest) = true ∧
        selectObjects (a :: b :: rest) = some (a, b)) := by
  refine ⟨rfl, fun a => rfl, fun a b => rfl, ?_⟩
  intro a b rest hrest
  have hw : objectCountWarning (a :: b :: rest) = true := by
    cases rest with
    | nil => exact absurd rfl hrest
    | cons c rest =>
      simp only [objectCountWarning, List.length_cons]
      rw [bne_iff_ne]
      omega
  refine ⟨?_, hw, rfl⟩
  simp only [objectsBlock, hw]

/-- C9 witness: the block evaluated on concrete lists of lengths 0 to 3. -/
theorem c9_witness :
    objectsBlock ([] : List ℕ) = ObjectsOutcome.typeError ∧
    objectsBlock ([1] : List ℕ) = ObjectsOutcome.warnedIndexError ∧
    objectsBlock ([1, 2] : List ℕ) = ObjectsOutcome.proceed false 1 2 ∧
    (objectsBlock ([1, 2, 3] : List ℕ) = ObjectsOutcome.proceed true 1 2 ∧
      objectCountWarning ([1, 2, 3] : List ℕ) = true ∧
      selectObjects ([1, 2, 3] : List ℕ) = some (1, 2)) :=
  ⟨(@c9_warn_proceed ℕ).1, (@c9_warn_proceed ℕ).2.1 1,
    (@c9_warn_proceed ℕ).2.2.1 1 2,
    (@c9_warn_proceed ℕ).2.2.2 1 2 [3] (by decide)⟩

/-- C10: with zero duration the loop executes zero times: no instant is
sampled and the report sees the untouched seeds, minimum (2 * math.pi, start)
and maximum (0, start), so the reported minimum separation exceeds the
reported maximum. -/
theorem c10_zero_duration (oracle : ℚ → ℚ) (start : ℚ) (resS : ℕ) :
    scanRecords oracle start 0 resS = ((2 * mathPi, start), (0, start)) ∧
    sampleTimes start 0 resS = [] ∧
    (scanRecords oracle start 0 resS).2.1 <
      (scanRecords oracle start 0 resS).1.1 := by
  have hn := numIters_zero_dur resS
  have h1 : scanRecords oracle start 0 resS = ((2 * mathPi, start), (0, start)) := by
    simp [scanRecords, hn, scanAux, initRecords]
  refine ⟨h1, ?_, ?_⟩
  · simp [sampleTimes, hn, sampleAux]
  · rw [h1]
    norm_num [mathPi]

end Conjunction
